import Mathlib

/-!
Verification of the dedupetool repository (Linux FIDEDUPERANGE / FIEMAP
deduplication engine) against its natural-language specification.

The Rust sources are shallowly embedded: pure computations become Lean
functions on `Nat` / `Int`, kernel interaction (ioctl results, file opens,
metadata) becomes explicit oracle parameters, and fallible code returns
`Except`.  Machine integers are modelled as `Nat` with explicit `% 2^64`
only where overflow can occur.  A `fatal` outcome models a Rust panic.
-/

set_option autoImplicit false

namespace Dedupetool

/-- File paths; canonicalization is an oracle parameter where needed. -/
abbrev Path := String

/-- A raw OS error code standing in for `std::io::Error` values built with
`from_raw_os_error`; other error constructions are given fixed codes by the
oracles that produce them. -/
abbrev OsError := Int

deriving instance DecidableEq for Except

/-- Modelled from the spec: the `ioctl_consts` module is declared in
`lib.rs` and produced by `dedupetool-sys` from `linux/fs.h`, but its source
is not under `src/`; the constant values are the Linux ones the spec's
glossary refers to (`FILE_DEDUPE_RANGE_SAME = 0`). -/
def FILE_DEDUPE_RANGE_SAME : Int := 0

/-- Modelled from the spec: `FILE_DEDUPE_RANGE_DIFFERS = 1` from
`linux/fs.h` (see `FILE_DEDUPE_RANGE_SAME` for why this is spec-modelled). -/
def FILE_DEDUPE_RANGE_DIFFERS : Int := 1

/-- Modelled from the spec: `FIEMAP_EXTENT_LAST = 0x1` from `linux/fiemap.h`
(see `FILE_DEDUPE_RANGE_SAME` for why this is spec-modelled). -/
def FIEMAP_EXTENT_LAST : Nat := 1

/-- `ioctl_fideduperange.rs` line 18. -/
def IOCTL_DEDUPE_MAX_DESTS : Nat := 100

/-- `ioctl_fideduperange.rs` line 21: 16 MiB window cap. -/
def IOCTL_DEDUPE_MAX_BYTES : Nat := 16 * 1024 * 1024

/-- Modulus of the `u64` machine type. -/
def U64_MOD : Nat := 2 ^ 64

/-- `i32::MAX`, the sentinel poured into `status` before each ioctl. -/
def I32_MAX : Int := 2147483647

/-- `ioctl_fideduperange.rs` lines 35-37:
`fn align_down(n: u64, align: u64) -> u64 { n - ((n * align) / align) }`.
The multiplication wraps modulo `2^64` (release build); the quotient
`((n*align) % 2^64) / align` never exceeds `n`, so the subtraction does not
wrap and plain `Nat` subtraction is exact. -/
def align_down (n a : Nat) : Nat := n - ((n * a) % U64_MOD) / a

/-- What the spec means by aligning down: the greatest multiple of `a`
that is `≤ n` (second definition, from the spec's words, for comparison
with the source's `align_down`). -/
def spec_align_down (n a : Nat) : Nat := (n / a) * a

/-- `DedupeResponse` from `ioctl_fideduperange.rs` lines 175-179. -/
inductive DedupeResponse where
  | error (e : OsError)
  | rangeDiffers
  | rangeSame (bytes_deduped : Nat)
  deriving DecidableEq, Repr

/-- The per-destination status interpretation, extracted verbatim from the
`match info.status` expression in `dedupe_files`
(`ioctl_fideduperange.rs` lines 89-105).  `none` models the
`unknown => ...` arm, which aborts the process (a Rust panic). -/
def interpStatus (status : Int) (bytes_deduped : Nat) : Option DedupeResponse :=
  if status < 0 then some (.error (-status))
  else if status = FILE_DEDUPE_RANGE_DIFFERS then some .rangeDiffers
  else if status = FILE_DEDUPE_RANGE_SAME then
    some (if bytes_deduped = 0 then .rangeDiffers else .rangeSame bytes_deduped)
  else none

/-! ## Extent probe (`ioctl_fiemap.rs`) -/

/-- `ExtentFlag` from `ioctl_fiemap.rs` lines 64-78. -/
inductive ExtentFlag where
  | last
  | locationUnknown
  | delayedAllocation
  | encoded
  | dataEncrypted
  | notAligned
  | dataInline
  | dataTail
  | unwritten
  | merged
  | shared
  | unknown (bits : Nat)
  deriving DecidableEq, Repr

/-- The known flag bits, in the order `ExtentFlag::set_from` tests them
(`ioctl_fiemap.rs` lines 99-136); bit values are the `linux/fiemap.h` ones
(spec-modelled, like `FIEMAP_EXTENT_LAST`). -/
def knownFlagBits : List (Nat × ExtentFlag) :=
  [(0x1, .last), (0x2, .locationUnknown), (0x4, .delayedAllocation),
   (0x8, .encoded), (0x80, .dataEncrypted), (0x100, .notAligned),
   (0x200, .dataInline), (0x400, .dataTail), (0x800, .unwritten),
   (0x1000, .merged), (0x2000, .shared)]

/-- `ExtentFlag::set_from` (`ioctl_fiemap.rs` lines 99-144): decode every
known bit to its named flag, then each residual bit to `unknown`.  The
`BTreeSet` is modelled as the list of flags in decode order (no claim
inspects the decoded set, only the raw bits). -/
def ExtentFlag.set_from (flags : Nat) : List ExtentFlag :=
  let step := fun (acc : List ExtentFlag × Nat) (p : Nat × ExtentFlag) =>
    if acc.2 &&& p.1 ≠ 0 then (acc.1 ++ [p.2], acc.2 - (acc.2 &&& p.1)) else acc
  let known := knownFlagBits.foldl step ([], flags)
  let residual := (List.range 32).foldl
    (fun (acc : List ExtentFlag × Nat) (x : Nat) =>
      if acc.2 &&& (1 <<< x) ≠ 0 then
        (acc.1 ++ [.unknown (1 <<< x)], acc.2 - (acc.2 &&& (1 <<< x)))
      else acc)
    known
  residual.1

/-- `Extent` from `ioctl_fiemap.rs` lines 56-61. -/
structure Extent where
  logical_offset : Nat
  physical_offset : Nat
  length : Nat
  flags : List ExtentFlag
  deriving DecidableEq, Repr

/-- One `struct fiemap_extent` as filled in by the kernel
(`FileExtent`, `ioctl_fiemap.rs` lines 176-183). -/
structure RawExtent where
  fe_logical : Nat
  fe_physical : Nat
  fe_length : Nat
  fe_flags : Nat
  deriving DecidableEq, Repr

/-- The `Extent` built from a kernel extent (`ioctl_fiemap.rs` lines 28-33). -/
def RawExtent.toExtent (e : RawExtent) : Extent :=
  { logical_offset := e.fe_logical
    physical_offset := e.fe_physical
    length := e.fe_length
    flags := ExtentFlag.set_from e.fe_flags }

/-- The outcome of one `FS_IOC_FIEMAP` ioctl: the OS error, or the
`fm_mapped_extents`-long prefix of the extent buffer.  A whole kernel
interaction is a list of these, consumed one per loop iteration. -/
abbrev FiemapCall := Except OsError (List RawExtent)

/-- Result of `get_extents`: `invalidData` is the
`ErrorKind::InvalidData` return, `err` any propagated OS error, and
`outOfTrace` is a model artifact for when the supplied kernel trace is
shorter than the iteration needs. -/
inductive GetExtentsResult where
  | ok (extents : List Extent)
  | err (e : OsError)
  | invalidData
  | outOfTrace
  deriving DecidableEq, Repr

/-- The `while offset < range.end` loop of `get_extents`
(`ioctl_fiemap.rs` lines 20-52), one kernel call per iteration. -/
def getExtentsLoop (rangeEnd : Nat) :
    List FiemapCall → Nat → List Extent → GetExtentsResult
  | [], offset, acc => if offset < rangeEnd then .outOfTrace else .ok acc
  | c :: rest, offset, acc =>
    if offset < rangeEnd then
      match c with
      | .error e => .err e
      | .ok ves =>
        let acc' := acc ++ ves.map RawExtent.toExtent
        if offset = 0 ∧ ves = [] then .ok []
        else
          match ves.getLast? with
          | none => .invalidData
          | some last =>
            if last.fe_flags &&& FIEMAP_EXTENT_LAST ≠ 0 then .ok acc'
            else getExtentsLoop rangeEnd rest (last.fe_logical + last.fe_length) acc'
    else .ok acc

/-- `get_extents` (`ioctl_fiemap.rs` lines 12-54).  The `sync` flag only
changes the request flags sent to the kernel, which the trace model
absorbs into the oracle, so it is not a parameter here. -/
def get_extents (trace : List FiemapCall) (rangeStart rangeEnd : Nat) :
    GetExtentsResult :=
  getExtentsLoop rangeEnd trace rangeStart []

/-! ## Data model (`diskblade.rs`) -/

/-- `FileOffset` from `diskblade.rs` lines 33-39. -/
structure FileOffset where
  file : Path
  offset : Nat
  deriving DecidableEq, Repr

/-- `FileOffset::new` (`diskblade.rs` lines 42-46): the path is
canonicalized before being stored.  `canon` is the `Path::canonicalize`
oracle; modelling it as total assumes the file exists (otherwise the Rust
`expect` aborts, which no claim exercises). -/
def FileOffset.new (canon : Path → Path) (file : Path) (offset : Nat) : FileOffset :=
  { file := canon file, offset := offset }

/-- `FileSectionTarget` from `diskblade.rs` lines 25-30. -/
structure FileSectionTarget where
  length : Nat
  offsets : List FileOffset
  deriving DecidableEq, Repr

/-! ## Deduplication driver (`ioctl_fideduperange.rs`) -/

/-- `DedupeRequest` from `ioctl_fideduperange.rs` lines 161-164. -/
structure DedupeRequest where
  dest : Path
  dest_offset : Nat
  deriving DecidableEq, Repr

/-- `DedupeRequestInternal` (`ioctl_fideduperange.rs` lines 183-189),
without the always-zero reserved fields. -/
structure DedupeRequestInternal where
  src_offset : Nat
  src_length : Nat
  dest_count : Nat
  deriving DecidableEq, Repr

/-- `DedupeRequestInternalInfo` (`ioctl_fideduperange.rs` lines 193-199),
without the always-zero reserved field.  `status` is the `i32` slot. -/
structure DedupeRequestInternalInfo where
  dest_fd : Nat
  dest_offset : Nat
  bytes_deduped : Nat
  status : Int
  deriving DecidableEq, Repr

/-- One issued `FIDEDUPERANGE` ioctl, as handed to the kernel:
the header plus the info array (with its poisoned return slots). -/
structure IssuedCall where
  header : DedupeRequestInternal
  infos : List DedupeRequestInternalInfo
  deriving DecidableEq, Repr

/-- The environment of one `dedupe_files` call: the open-for-write oracle,
the kernel oracle (indexed by ioctl sequence number; each entry is either
the ioctl's OS error or the `(bytes_deduped, status)` pairs the kernel
writes back, by destination position), and the source metadata
(`st_blksize`) together with the source range. -/
structure DriverEnv where
  openW : Path → Except OsError Unit
  kernel : Nat → Except OsError (List (Nat × Int))
  blockSize : Nat
  srcStart : Nat
  srcEnd : Nat

/-- Mutable state threaded through the driver loop: the next fresh file
descriptor, the next kernel call index, the trace of issued ioctls, and the
aggregated per-key responses (`aggregate_results`, modelled as an
association list in first-insertion order). -/
structure DriverState (K : Type) where
  counter : Nat
  callIdx : Nat
  trace : List IssuedCall
  agg : List (K × List DedupeResponse)
  deriving Repr

/-- A premature end of `dedupe_files`: a propagated OS error (`?`) or a
panic (`fatal`). -/
inductive Halt where
  | err (e : OsError)
  | fatal
  deriving DecidableEq, Repr

/-- Structural worker for `chunksOf`: the first argument is fuel, started
at the list's length by `chunksOf`.  Each step consumes at least the head,
so the fuel never runs out before the list does and the middle case is
unreachable from `chunksOf`. -/
def chunksOfAux {α : Type} (n : Nat) : Nat → List α → List (List α)
  | _, [] => []
  | 0, _ :: _ => []
  | fuel + 1, x :: xs => (x :: xs.take (n - 1)) :: chunksOfAux n fuel (xs.drop (n - 1))

/-- `slice::chunks`: split a list into consecutive runs of at most `n`
elements (Rust panics on `n = 0`; the driver only uses `n = 100`). -/
def chunksOf {α : Type} (n : Nat) (l : List α) : List (List α) :=
  chunksOfAux n l.length l

/-- `HashMap` lookup for a map built by repeated `insert` on an
association list where later inserts shadow earlier ones
(the last matching entry wins). -/
def lookupLast {K V : Type} [DecidableEq K] : List (K × V) → K → Option V
  | [], _ => none
  | (k', v) :: rest, k =>
    match lookupLast rest k with
    | some r => some r
    | none => if k' = k then some v else none

/-- The destination opens of one request chunk
(`ioctl_fideduperange.rs` lines 51-59): each entry is opened write-only in
iteration order, short-circuiting on the first OS error; a successful open
yields the next fresh descriptor.  Returns each entry tagged with the
descriptor its own open produced. -/
def openAll {K : Type} (openW : Path → Except OsError Unit) (ctr : Nat) :
    List (K × DedupeRequest) → Except OsError (List (K × DedupeRequest × Nat))
  | [] => .ok []
  | (k, r) :: rest =>
    match openW r.dest with
    | .error e => .error e
    | .ok _ =>
      match openAll openW (ctr + 1) rest with
      | .error e => .error e
      | .ok l => .ok ((k, r, ctr) :: l)

/-- The `open_fds: HashMap<PathBuf, File>` of one chunk, as a
(dest path ↦ fd) association list; a later open of the same path shadows
an earlier one, as `collect` into a `HashMap` keeps the last insert. -/
def destFds {K : Type} (entries : List (K × DedupeRequest × Nat)) : List (Path × Nat) :=
  entries.map (fun e => (e.2.1.dest, e.2.2))

/-- `open_fds[&r.dest].as_raw_fd()`: the descriptor a destination path
resolves to (always present for a path opened in this chunk; the `getD 0`
default is unreachable there). -/
def fdOf {K : Type} (entries : List (K × DedupeRequest × Nat)) (dest : Path) : Nat :=
  (lookupLast (destFds entries) dest).getD 0

/-- The `fd_map: HashMap<RawFd, K>` (`ioctl_fideduperange.rs` lines 60-63). -/
def mkFdMap {K : Type} (entries : List (K × DedupeRequest × Nat)) : List (Nat × K) :=
  entries.map (fun e => (fdOf entries e.2.1.dest, e.1))

/-- The info array built before the ioctl
(`ioctl_fideduperange.rs` lines 74-85): destination offsets are
`align_down(dest_offset + offset, block_size)` and the return slots are
poisoned with `u64::MIN` and `i32::MAX`. -/
def buildInfos {K : Type} (blockSize offset : Nat)
    (entries : List (K × DedupeRequest × Nat)) : List DedupeRequestInternalInfo :=
  entries.map (fun e =>
    { dest_fd := fdOf entries e.2.1.dest
      dest_offset := align_down (e.2.1.dest_offset + offset) blockSize
      bytes_deduped := 0
      status := I32_MAX })

/-- The request header built for one chunk-in-a-window
(`ioctl_fideduperange.rs` lines 64-73). -/
def buildHeader (env : DriverEnv) (offset : Nat) (destCount : Nat) :
    DedupeRequestInternal :=
  { src_offset := align_down (env.srcStart + offset) env.blockSize
    src_length := min (env.srcEnd - (env.srcStart + offset)) IOCTL_DEDUPE_MAX_BYTES
    dest_count := destCount }

/-- The kernel writing its results back into the info array
(`call_ioctl_unsafe` copies exactly `dest_count` entries back): slot `i`
receives the `i`-th `(bytes_deduped, status)` pair; a slot the kernel did
not fill keeps its poisoned values. -/
def writeBack : List DedupeRequestInternalInfo → List (Nat × Int) →
    List DedupeRequestInternalInfo
  | [], _ => []
  | i :: is, [] => i :: is
  | i :: is, (b, s) :: os =>
    { i with bytes_deduped := b, status := s } :: writeBack is os

/-- `aggregate_results.entry(k).or_insert_with(Vec::new).push(response)`:
append the response to `k`'s list, creating the entry at the end on first
use. -/
def pushResponse {K : Type} [DecidableEq K] (agg : List (K × List DedupeResponse))
    (k : K) (r : DedupeResponse) : List (K × List DedupeResponse) :=
  match agg with
  | [] => [(k, [r])]
  | (k', rs) :: rest =>
    if k' = k then (k', rs ++ [r]) :: rest else (k', rs) :: pushResponse rest k r

/-- The `for info in infos` demultiplexing loop
(`ioctl_fideduperange.rs` lines 88-110): interpret each status and push the
response under the key `fd_map` gives for the info's descriptor.  `none`
models the two panics on that path (unknown status, missing `fd_map` key). -/
def demux {K : Type} [DecidableEq K] (fdMap : List (Nat × K)) :
    List (K × List DedupeResponse) → List DedupeRequestInternalInfo →
    Option (List (K × List DedupeResponse))
  | agg, [] => some agg
  | agg, i :: is =>
    match interpStatus i.status i.bytes_deduped with
    | none => none
    | some r =>
      match lookupLast fdMap i.dest_fd with
      | none => none
      | some k => demux fdMap (pushResponse agg k r) is

/-- The driver state right after issuing one chunk's ioctl: the chunk's
descriptors are consumed, the call counter advances, and the issued call
(header plus poisoned info array) is appended to the trace. -/
def stAfterCall {K : Type} (env : DriverEnv) (offset : Nat)
    (chunk : List (K × DedupeRequest)) (entries : List (K × DedupeRequest × Nat))
    (st : DriverState K) : DriverState K :=
  { st with
    counter := st.counter + chunk.length
    callIdx := st.callIdx + 1
    trace := st.trace ++ [⟨buildHeader env offset entries.length,
                           buildInfos env.blockSize offset entries⟩] }

/-- One `req_chunk` iteration of the inner `for` loop
(`ioctl_fideduperange.rs` lines 46-111): open the destinations, build and
issue the ioctl, then demultiplex the written-back statuses.  The issued
call is recorded in the trace whether or not the kernel reports an error. -/
def runChunk {K : Type} [DecidableEq K] (env : DriverEnv) (offset : Nat)
    (chunk : List (K × DedupeRequest)) (st : DriverState K) :
    DriverState K × Option Halt :=
  match openAll env.openW st.counter chunk with
  | .error e => (st, some (.err e))
  | .ok entries =>
    match env.kernel st.callIdx with
    | .error e => (stAfterCall env offset chunk entries st, some (.err e))
    | .ok outs =>
      match demux (mkFdMap entries) st.agg
          (writeBack (buildInfos env.blockSize offset entries) outs) with
      | none => (stAfterCall env offset chunk entries st, some .fatal)
      | some agg' => ({ stAfterCall env offset chunk entries st with agg := agg' }, none)

/-- The chunk loop of one window: process each ≤100-destination chunk in
order, stopping at the first error or panic. -/
def runChunks {K : Type} [DecidableEq K] (env : DriverEnv) (offset : Nat) :
    List (List (K × DedupeRequest)) → DriverState K →
    DriverState K × Option Halt
  | [], st => (st, none)
  | c :: cs, st =>
    match runChunk env offset c st with
    | (st', none) => runChunks env offset cs st'
    | halted => halted

/-- The `while offset < full_length` window loop
(`ioctl_fideduperange.rs` lines 45-114): 16 MiB steps from the start of the
source range.  The first argument is structural fuel; the loop condition
`offset < fullLength` is the source's guard, and since each iteration
advances `offset` by 16 MiB ≥ 1 the loop runs at most `fullLength`
iterations, so starting the fuel at `fullLength` (as `dedupe_files` does)
never exhausts it while the guard still holds. -/
def runWindows {K : Type} [DecidableEq K] (env : DriverEnv)
    (request : List (K × DedupeRequest)) (fullLength : Nat) :
    Nat → Nat → DriverState K → DriverState K × Option Halt
  | 0, _, st => (st, none)
  | fuel + 1, offset, st =>
    if offset < fullLength then
      match runChunks env offset (chunksOf IOCTL_DEDUPE_MAX_DESTS request) st with
      | (st', none) =>
        runWindows env request fullLength fuel (offset + IOCTL_DEDUPE_MAX_BYTES) st'
      | halted => halted
    else (st, none)

/-- `dedupe_files` (`ioctl_fideduperange.rs` lines 28-117).  The request
`HashMap` is modelled as an association list in the map's iteration order
(keys distinct by construction).  `full_length = src_range.end -
src_range.start` uses truncating `Nat` subtraction, which matches the Rust
`u64` subtraction whenever `start ≤ end` (every caller passes
`offset..offset+len`).  The returned pair is the final driver state (whose
`agg` field is the `Ok` result and whose `trace` field lists every issued
ioctl) together with `none` for `Ok` or the premature `Halt`. -/
def dedupe_files {K : Type} [DecidableEq K] (env : DriverEnv)
    (request : List (K × DedupeRequest)) : DriverState K × Option Halt :=
  runWindows env request (env.srcEnd - env.srcStart) (env.srcEnd - env.srcStart) 0
    { counter := 0, callIdx := 0, trace := [], agg := [] }

/-! ## Redundancy pruner (`bin/dedupetool.rs` lines 275-320) -/

/-- The canonical bucket key the pruner computes from a candidate's extent
list (`bin/dedupetool.rs` lines 293-297):
`extents.into_iter().map(|ext| (ext.logical_offset, ext.length))`. -/
def extentListKey (extents : List Extent) : List (Nat × Nat) :=
  extents.map (fun ext => (ext.logical_offset, ext.length))

/-- Second definition, from the spec's words: the canonical key is
`[(physical_offset, length), …]` (spec §4.3 and design note on choosing
`physical_offset`), for comparison with the source's `extentListKey`. -/
def specPhysicalKey (extents : List Extent) : List (Nat × Nat) :=
  extents.map (fun ext => (ext.physical_offset, ext.length))

/-- `physical_extent_buckets.entry(key).or_default().push(section)`:
append the candidate to its key's bucket, creating the bucket at the end on
first use. -/
def bucketPush (m : List (List (Nat × Nat) × List FileOffset))
    (k : List (Nat × Nat)) (o : FileOffset) :
    List (List (Nat × Nat) × List FileOffset) :=
  match m with
  | [] => [(k, [o])]
  | (k', os) :: rest =>
    if k' = k then (k', os ++ [o]) :: rest else (k', os) :: bucketPush rest k o

/-- The bucket-building `for section in &target.offsets` loop
(`bin/dedupetool.rs` lines 281-300), with the extent probe (file open plus
`get_extents` over `offset..offset+size`) as an oracle per candidate;
the first probe error propagates (`?`). -/
def pruneBuckets (probe : FileOffset → Except OsError (List Extent)) :
    List FileOffset → List (List (Nat × Nat) × List FileOffset) →
    Except OsError (List (List (Nat × Nat) × List FileOffset))
  | [], m => .ok m
  | o :: os, m =>
    match probe o with
    | .error e => .error e
    | .ok extents => pruneBuckets probe os (bucketPush m (extentListKey extents) o)

/-- The pure content of the bucket-building loop: what `pruneBuckets`
computes when every probe succeeds, with `keyOf` the per-candidate key
(`extentListKey` of the probed extents); see `pruneBuckets_eq_mkBuckets`. -/
def mkBuckets (keyOf : FileOffset → List (Nat × Nat)) :
    List FileOffset → List (List (Nat × Nat) × List FileOffset) →
    List (List (Nat × Nat) × List FileOffset)
  | [], m => m
  | o :: os, m => mkBuckets keyOf os (bucketPush m (keyOf o) o)

/-- `Iterator::max_by_key(|v| v.len())` over the bucket values: `none` on
an empty map, otherwise the maximum-length value, the later of equals
winning (Rust's `max_by_key` returns the last maximum element). -/
def maxByLen : List (List FileOffset) → Option (List FileOffset)
  | [] => none
  | v :: vs =>
    match maxByLen vs with
    | none => some v
    | some w => some (if w.length < v.length then v else w)

/-- Outcome of the pruner: the new `target.offsets`, a propagated OS
error, or `fatal` for the `unwrap` panic on `max_by_key`'s `None`. -/
inductive PruneOutcome where
  | ok (offsets : List FileOffset)
  | err (e : OsError)
  | fatal
  deriving DecidableEq, Repr

/-- `remove_already_shared_file_sections` (`bin/dedupetool.rs` lines
275-320).  The `HashMap` of buckets is modelled in insertion order (Rust's
iteration order is arbitrary; none of the proved properties depend on the
tie chosen by `max_by_key`).  The `retain` keeps a candidate iff it is not
among `biggest_vec[1..]`. -/
def remove_already_shared_file_sections
    (probe : FileOffset → Except OsError (List Extent))
    (target : FileSectionTarget) : PruneOutcome :=
  match pruneBuckets probe target.offsets [] with
  | .error e => .err e
  | .ok buckets =>
    match maxByLen (buckets.map (fun b => b.2)) with
    | none => .fatal
    | some biggest =>
      if biggest.length = 1 then .ok target.offsets
      else if biggest.length = target.offsets.length then .ok []
      else .ok (target.offsets.filter (fun x => ¬ x ∈ biggest.tail))

/-! ## Target processing (`bin/dedupetool.rs` lines 180-273) -/

/-- `resolve_file_sections` (`bin/dedupetool.rs` lines 255-273): an empty
group becomes the empty target; otherwise the length is the first file's
size (metadata oracle) and every file becomes a `FileOffset` at 0 through
`FileOffset::new` (hence canonicalized). -/
def resolve_file_sections (canon : Path → Path)
    (fileSize : Path → Except OsError Nat) (files : List Path) :
    Except OsError FileSectionTarget :=
  match files with
  | [] => .ok { length := 0, offsets := [] }
  | f :: _ =>
    match fileSize f with
    | .error e => .error e
    | .ok size =>
      .ok { length := size, offsets := files.map (fun fl => FileOffset.new canon fl 0) }

/-- `DeduplicationTarget` from `bin/dedupetool.rs` lines 122-126. -/
inductive DeduplicationTarget where
  | files (fs : List Path)
  | sections (t : FileSectionTarget)
  deriving DecidableEq, Repr

/-- `DedupeInfo` from `bin/dedupetool.rs` lines 391-398; the `HashMap` of
errors and the `HashSet` of affected offsets are modelled as lists. -/
structure DedupeInfo where
  size : Nat
  offset_targeted : FileOffset
  offsets_errored : List (FileOffset × OsError)
  offsets_affected : List FileOffset
  total_bytes_saved : Nat
  deriving DecidableEq, Repr

/-- Result of processing one target, alongside the trace of issued
ioctls: `ok none` is the no-op result, `err` a propagated OS error,
`fatal` a panic. -/
inductive ProcResult where
  | ok (info : Option DedupeInfo)
  | err (e : OsError)
  | fatal
  deriving DecidableEq, Repr

/-- `HashMap::insert` over an association list: replace in place if the
key exists, else append. -/
def insertReplace {K V : Type} [DecidableEq K] (m : List (K × V)) (k : K) (v : V) :
    List (K × V) :=
  match m with
  | [] => [(k, v)]
  | (k', v') :: rest =>
    if k' = k then (k', v) :: rest else (k', v') :: insertReplace rest k v

/-- `collect::<HashMap<_, _>>()` from a pair iterator: repeated insert,
later values shadowing earlier ones for the same key. -/
def collectHashMap {K V : Type} [DecidableEq K] (l : List (K × V)) : List (K × V) :=
  l.foldl (fun m p => insertReplace m p.1 p.2) []

/-- `HashSet::insert` modelled on a list: append if not yet present. -/
def insertSet {A : Type} [DecidableEq A] (s : List A) (a : A) : List A :=
  if a ∈ s then s else s ++ [a]

/-- The response-aggregation loop of `internal_process_dedupe`
(`bin/dedupetool.rs` lines 223-244): `RangeSame` with positive bytes marks
the offset affected and adds to the total, errors are recorded (last one
per offset wins), `RangeDiffers` is ignored. -/
def aggregateResponses
    (responses : List (FileOffset × List DedupeResponse)) :
    List (FileOffset × OsError) × List FileOffset × Nat :=
  responses.foldl
    (fun acc p =>
      p.2.foldl
        (fun acc r =>
          match r with
          | .rangeSame bytes =>
            if 0 < bytes then
              (acc.1, insertSet acc.2.1 p.1, acc.2.2 + bytes)
            else acc
          | .error e => (insertReplace acc.1 p.1 e, acc.2.1, acc.2.2)
          | .rangeDiffers => acc)
        acc)
    ([], [], 0)

/-- The environment of `internal_process_dedupe`: canonicalization,
metadata size, the pruner's extent probe, the read-open of the source, and
the driver's oracles.  `blockSize` stands for the successful
`src.metadata()?.st_blksize()` of the source file. -/
structure ProcEnv where
  canon : Path → Path
  fileSize : Path → Except OsError Nat
  probe : FileOffset → Except OsError (List Extent)
  openR : Path → Except OsError Unit
  openW : Path → Except OsError Unit
  kernel : Nat → Except OsError (List (Nat × Int))
  blockSize : Nat

/-- `internal_process_dedupe` (`bin/dedupetool.rs` lines 186-253): reduce
the target to sections, optionally prune, drop groups of fewer than two
offsets as a no-op, then drive `dedupe_files` from the first offset and
aggregate the responses into a `DedupeInfo`. -/
def internal_process_dedupe (env : ProcEnv) (skipFiemap : Bool)
    (target : DeduplicationTarget) : ProcResult × List IssuedCall :=
  let resolved : Except OsError FileSectionTarget :=
    match target with
    | .files fs => resolve_file_sections env.canon env.fileSize fs
    | .sections t => .ok t
  match resolved with
  | .error e => (.err e, [])
  | .ok t0 =>
    let pruned : PruneOutcome :=
      if skipFiemap then .ok t0.offsets
      else remove_already_shared_file_sections env.probe t0
    match pruned with
    | .err e => (.err e, [])
    | .fatal => (.fatal, [])
    | .ok offs =>
      let t : FileSectionTarget := { t0 with offsets := offs }
      match t.offsets with
      | [] => (.ok none, [])
      | [_] => (.ok none, [])
      | first :: rest =>
        match env.openR first.file with
        | .error e => (.err e, [])
        | .ok _ =>
          let destReqs : List (FileOffset × DedupeRequest) :=
            collectHashMap (rest.map (fun fo =>
              (fo, { dest := fo.file, dest_offset := fo.offset })))
          let denv : DriverEnv :=
            { openW := env.openW, kernel := env.kernel,
              blockSize := env.blockSize,
              srcStart := first.offset, srcEnd := first.offset + t.length }
          let run := dedupe_files denv destReqs
          match run.2 with
          | some (.err e) => (.err e, run.1.trace)
          | some .fatal => (.fatal, run.1.trace)
          | none =>
            let acc := aggregateResponses run.1.agg
            (.ok (some
              { size := t.length
                offset_targeted := first
                offsets_errored := acc.1
                offsets_affected := acc.2.1
                total_bytes_saved := acc.2.2 }), run.1.trace)

/-! ## Legacy stdin binary (`main.rs`) -/

/-- `process_dedupe` from the legacy stdin binary (`main.rs` lines
112-131), modelled up to and including its 16 KiB minimum-benefit check:
an empty group panics on `split_first().unwrap()`; a first file smaller
than `16 * 1024` bytes returns `Ok(None)` before any file is opened or any
ioctl issued.  (`main.rs` is stale — it names a `DedupeResponse::RangeTooSmall`
variant and a `DedupeRequest::new(File, u64)` signature that no longer
exist — so past the threshold the flow is modelled with the current
driver: source range `0..metadata(first).len()`, destinations keyed by
path at offset 0.) -/
def legacy_process_dedupe (env : ProcEnv) (files : List Path) :
    ProcResult × List IssuedCall :=
  match files with
  | [] => (.fatal, [])
  | first :: rest =>
    match env.fileSize first with
    | .error e => (.err e, [])
    | .ok n =>
      if n < 16 * 1024 then (.ok none, [])
      else
        match env.openR first with
        | .error e => (.err e, [])
        | .ok _ =>
          let destReqs : List (Path × DedupeRequest) :=
            collectHashMap (rest.map (fun f => (f, { dest := f, dest_offset := 0 })))
          let denv : DriverEnv :=
            { openW := env.openW, kernel := env.kernel,
              blockSize := env.blockSize, srcStart := 0, srcEnd := n }
          let run := dedupe_files denv destReqs
          match run.2 with
          | some (.err e) => (.err e, run.1.trace)
          | some .fatal => (.fatal, run.1.trace)
          | none => (.ok (some
              { size := n
                offset_targeted := { file := first, offset := 0 }
                offsets_errored := []
                offsets_affected := []
                total_bytes_saved := 0 }), run.1.trace)

/-! ## Chunk manager target emission (`diskblade/chunk_manager.rs`) -/

/-- `Chunk` from `chunk_manager.rs` lines 11-16. -/
structure Chunk where
  hash : Nat
  offset : Nat
  length : Nat
  deriving DecidableEq, Repr, Inhabited

/-- The `FileSectionTarget` assembled by `ChunkManager::create_target`
(`chunk_manager.rs` lines 182-225) from the manager's `paths` and
`chunk_data` arenas, the source path index, the run's
`start_chunks: path index ↦ start chunk index` map, and the index one past
the run's last chunk in the source path.  The offsets are built with a
plain struct literal from the stored path — `FileOffset::new` is not
called.  (The function's other effect, pruning consumed chunks from the
`(hash, length)` multimap, does not touch the returned target and is not
modelled here.) -/
def create_target (paths : List Path) (chunk_data : List Chunk)
    (index : Nat) (start_chunks : List (Nat × Nat)) (chunk_index : Nat) :
    FileSectionTarget :=
  let first_index := (lookupLast start_chunks index).getD 0
  let last_index := chunk_index - 1
  let first_chunk := (chunk_data.getD first_index default)
  let last_chunk := (chunk_data.getD last_index default)
  { length := last_chunk.offset + last_chunk.length - first_chunk.offset
    offsets := start_chunks.map (fun p =>
      { file := paths.getD p.1 default
        offset := (chunk_data.getD p.2 default).offset }) }

/-! ## Concrete fixtures for witnesses and counterexamples -/

/-- Candidate file `A`, section start 0. -/
def exA : FileOffset := { file := "A", offset := 0 }

/-- Candidate file `B`, section start 0. -/
def exB : FileOffset := { file := "B", offset := 0 }

/-- Candidate file `C`, section start 0. -/
def exC : FileOffset := { file := "C", offset := 0 }

/-- An extent at physical offset 100 (the layout `A` and `B` share). -/
def exExtShared : Extent :=
  { logical_offset := 0, physical_offset := 100, length := 10, flags := [] }

/-- An extent with a different logical/physical layout, for `C`. -/
def exExtOther : Extent :=
  { logical_offset := 5, physical_offset := 200, length := 10, flags := [] }

/-- An extent with the same logical layout as `exExtShared` but a
different physical location. -/
def exExtPhysDiff : Extent :=
  { logical_offset := 0, physical_offset := 999, length := 10, flags := [] }

/-- Extent-probe results: `C` has its own layout, every other candidate
shows the shared layout. -/
def exExts : FileOffset → List Extent :=
  fun o => if o = exC then [exExtOther] else [exExtShared]

/-- The extent probe built from `exExts`, always succeeding. -/
def exProbe : FileOffset → Except OsError (List Extent) :=
  fun o => .ok (exExts o)

/-- A probe under which `B` has the same logical layout as `A` but a
different physical location — physically unshared data. -/
def exProbeLogicalTrap : FileOffset → Except OsError (List Extent) :=
  fun o => if o = exB then .ok [exExtPhysDiff] else .ok [exExtShared]

/-- A driver environment whose source range starts one block (4096) in,
with an always-succeeding kernel reporting `RANGE_SAME` over 4096 bytes. -/
def exDriverEnv : DriverEnv :=
  { openW := fun _ => .ok ()
    kernel := fun _ => .ok [(4096, 0)]
    blockSize := 4096, srcStart := 4096, srcEnd := 8192 }

/-- One destination at offset 4096, under key 7. -/
def exRequest : List (Nat × DedupeRequest) :=
  [(7, { dest := "B", dest_offset := 4096 })]

/-- `exDriverEnv` with an empty source range. -/
def exEmptyRangeEnv : DriverEnv :=
  { exDriverEnv with srcStart := 0, srcEnd := 0 }

/-- A processing environment: every file is 8192 bytes, canonicalization
is the identity, every open succeeds, and the kernel reports `RANGE_SAME`
over 8192 bytes for the single destination of each call. -/
def exProcEnv : ProcEnv :=
  { canon := id
    fileSize := fun _ => .ok 8192
    probe := fun _ => .ok [exExtShared]
    openR := fun _ => .ok ()
    openW := fun _ => .ok ()
    kernel := fun _ => .ok [(8192, 0)]
    blockSize := 4096 }

/-- A canonicalization oracle that is not the identity (absolutizes). -/
def exCanon : Path → Path := fun p => "/" ++ p

/-! ## Helper lemmas -/

theorem bucketPush_ne_nil (m : List (List (Nat × Nat) × List FileOffset))
    (k : List (Nat × Nat)) (o : FileOffset) : bucketPush m k o ≠ [] := by
  cases m with
  | nil => simp [bucketPush]
  | cons hd tl => simp only [bucketPush]; split <;> simp

theorem pruneBuckets_ok_ne_nil (probe : FileOffset → Except OsError (List Extent)) :
    ∀ (os : List FileOffset) (m r : List (List (Nat × Nat) × List FileOffset)),
      m ≠ [] → pruneBuckets probe os m = .ok r → r ≠ [] := by
  intro os
  induction os with
  | nil => intro m r hm h; simp only [pruneBuckets] at h; cases h; exact hm
  | cons o os ih =>
    intro m r hm h
    simp only [pruneBuckets] at h
    cases hpr : probe o with
    | error e => rw [hpr] at h; cases h
    | ok exts =>
      rw [hpr] at h
      exact ih _ r (bucketPush_ne_nil m _ o) h

theorem maxByLen_eq_none_iff (vs : List (List FileOffset)) :
    maxByLen vs = none ↔ vs = [] := by
  cases vs with
  | nil => simp [maxByLen]
  | cons v vs =>
    simp only [maxByLen]
    cases maxByLen vs <;> simp

/-! ## Claim C1 -/

/-- C1 (code bug): the spec claims each window's `src_offset` and
`dest_offset` passed to the ioctl are the unaligned window offsets rounded
down to the greatest multiple of `st_blksize`.  The code's
`align_down(n, align) = n - ((n * align) / align)` instead computes `0`
whenever `n * align` does not overflow a `u64`, so the passed offsets are
`0`, not the aligned-down window offsets: with `st_blksize = 4096` and a
source range starting at 4096 (one dest at 4096), the issued ioctl carries
`src_offset = 0` and `dest_offset = 0`, while the spec's aligned value is
4096. -/
theorem C1_offsets_are_zero_not_aligned :
    align_down 4096 4096 = 0 ∧
    align_down 12288 4096 = 0 ∧
    spec_align_down 4096 4096 = 4096 ∧
    (dedupe_files exDriverEnv exRequest).1.trace =
      [{ header := { src_offset := 0, src_length := 4096, dest_count := 1 },
         infos := [{ dest_fd := 0, dest_offset := 0, bytes_deduped := 0,
                     status := I32_MAX }] }] ∧
    (0 : Nat) ≠ spec_align_down 4096 4096 := by
  decide

/-! ## Claim C2 -/

/-- C2 (code bug): the spec (and the claim) say the pruner's canonical
bucket key is `[(physical_offset, length), …]`, but the code maps each
extent to `(ext.logical_offset, ext.length)`.  On an extent with logical
offset 5 and physical offset 200 the two keys differ; consequently, for
two candidates whose extents agree logically but sit at different physical
locations, the pruner buckets them together and empties the target as if
they were already shared. -/
theorem C2_bucket_key_uses_logical_offset :
    extentListKey [exExtOther] = [(5, 10)] ∧
    specPhysicalKey [exExtOther] = [(200, 10)] ∧
    extentListKey [exExtOther] ≠ specPhysicalKey [exExtOther] ∧
    exExtShared.physical_offset ≠ exExtPhysDiff.physical_offset ∧
    extentListKey [exExtShared] = extentListKey [exExtPhysDiff] ∧
    remove_already_shared_file_sections exProbeLogicalTrap
      { length := 10, offsets := [exA, exB] } = .ok [] := by
  decide

/-! ## Claim C3 -/

/-- C3 counterexample: an 8 KiB two-file `Files` group (below the claimed
16 KiB threshold) is not a no-op in the current driver
(`bin/dedupetool.rs`): `internal_process_dedupe` issues one ioctl and
returns `Ok(Some(..))`, not `Ok(None)`. -/
theorem C3_counterexample :
    exProcEnv.fileSize "A" = .ok 8192 ∧
    (8192 : Nat) < 16 * 1024 ∧
    (internal_process_dedupe exProcEnv true (.files ["A", "B"])).2.length = 1 ∧
    (internal_process_dedupe exProcEnv true (.files ["A", "B"])).1 ≠ .ok none := by
  decide

/-- C3 (amended): the 16 KiB minimum-benefit threshold lives in the legacy
stdin binary (`main.rs` lines 112-117), not in the `DeduplicationTarget`
driver: for any group whose first file's size is below `16 * 1024` bytes,
the legacy `process_dedupe` returns `Ok(None)` and issues no ioctl. -/
theorem C3_legacy_threshold_noop (env : ProcEnv) (first : Path)
    (rest : List Path) (n : Nat) (hsize : env.fileSize first = .ok n)
    (hlt : n < 16 * 1024) :
    legacy_process_dedupe env (first :: rest) = (.ok none, []) := by
  simp [legacy_process_dedupe, hsize, hlt]

/-- C3 witness: the amended theorem at the concrete 8 KiB environment. -/
theorem C3_witness : legacy_process_dedupe exProcEnv ["A", "B"] = (.ok none, []) :=
  C3_legacy_threshold_noop exProcEnv "A" ["B"] 8192 rfl (by decide)

/-! ## Claim C4 -/

/-- C4 counterexample: "any call after extents have already been seen
returning zero extents without `LAST` fails with `InvalidData`" is not
quite what the code does — the empty-file check keys on `offset == 0`, not
on being the first call.  If the first call returns one zero-length extent
at logical offset 0 (without `LAST`), the cursor stays 0, and the next
call's zero extents take the empty-file return: the function returns
`Ok([])` — discarding the seen extent — instead of failing with
`InvalidData`. -/
theorem C4_counterexample :
    get_extents [.ok [{ fe_logical := 0, fe_physical := 0, fe_length := 0,
                        fe_flags := 0 }], .ok []] 0 100 = .ok [] ∧
    get_extents [.ok [{ fe_logical := 0, fe_physical := 0, fe_length := 0,
                        fe_flags := 0 }], .ok []] 0 100 ≠ .invalidData := by
  decide

/-- C4 (amended): a `get_extents` request starting at offset 0 whose first
call returns zero extents yields `Ok` with the empty list (also when the
range is empty and no call is made); and a loop iteration at a nonzero
cursor with extents already accumulated whose call returns zero extents
fails with `InvalidData` — the nonzero-cursor proviso is what the
counterexample forces (cursor `last.logical + last.length = 0`). -/
theorem C4_empty_file_and_invalid_data :
    (∀ (rest : List FiemapCall) (rangeEnd : Nat),
        get_extents (.ok [] :: rest) 0 rangeEnd = .ok []) ∧
    (∀ (rangeEnd offset : Nat) (trace : List FiemapCall) (acc : List Extent),
        acc ≠ [] → offset ≠ 0 → offset < rangeEnd →
        getExtentsLoop rangeEnd (.ok [] :: trace) offset acc = .invalidData) := by
  constructor
  · intro rest rangeEnd
    simp only [get_extents, getExtentsLoop]
    by_cases h : (0 : Nat) < rangeEnd <;> simp [h]
  · intro rangeEnd offset trace acc hacc hoff hlt
    simp [getExtentsLoop, hlt, hoff]

/-- C4 witness: both parts of the amended theorem at concrete inputs — an
empty first call on range `[0, 7)`, and a second call with zero extents at
cursor 50 after one 50-byte extent was seen. -/
theorem C4_witness :
    get_extents [.ok []] 0 7 = .ok [] ∧
    getExtentsLoop 100 [.ok []] 50
      [RawExtent.toExtent { fe_logical := 0, fe_physical := 0, fe_length := 50,
                            fe_flags := 0 }] = .invalidData :=
  ⟨C4_empty_file_and_invalid_data.1 [] 7,
   C4_empty_file_and_invalid_data.2 100 50 []
     [RawExtent.toExtent { fe_logical := 0, fe_physical := 0, fe_length := 50,
                           fe_flags := 0 }]
     (by simp) (by decide) (by decide)⟩

/-! ## Claim C5 -/

/-- C5: per-destination status interpretation in `dedupe_files` — negative
status becomes `Error` of the negated code, `FILE_DEDUPE_RANGE_DIFFERS`
becomes `RangeDiffers`, `FILE_DEDUPE_RANGE_SAME` with zero `bytes_deduped`
is reclassified to `RangeDiffers`, `FILE_DEDUPE_RANGE_SAME` with positive
bytes becomes `RangeSame`, any other status is fatal (`interpStatus`
returns `none`, which `demux` propagates and `runChunk` turns into the
`fatal` halt); and the info array is built with the sentinel values
`bytes_deduped = u64::MIN = 0`, `status = i32::MAX` before each ioctl. -/
theorem C5_status_interpretation :
    (∀ (s : Int) (b : Nat), s < 0 → interpStatus s b = some (.error (-s))) ∧
    (∀ b : Nat, interpStatus FILE_DEDUPE_RANGE_DIFFERS b = some .rangeDiffers) ∧
    interpStatus FILE_DEDUPE_RANGE_SAME 0 = some .rangeDiffers ∧
    (∀ b : Nat, 0 < b →
        interpStatus FILE_DEDUPE_RANGE_SAME b = some (.rangeSame b)) ∧
    (∀ (s : Int) (b : Nat), 0 ≤ s → s ≠ FILE_DEDUPE_RANGE_SAME →
        s ≠ FILE_DEDUPE_RANGE_DIFFERS → interpStatus s b = none) ∧
    (∀ (K : Type) [DecidableEq K] (fdMap : List (Nat × K))
        (agg : List (K × List DedupeResponse)) (i : DedupeRequestInternalInfo)
        (is : List DedupeRequestInternalInfo),
        interpStatus i.status i.bytes_deduped = none →
        demux fdMap agg (i :: is) = none) ∧
    (∀ (K : Type) (blockSize offset : Nat)
        (entries : List (K × DedupeRequest × Nat)),
        ∀ i ∈ buildInfos blockSize offset entries,
          i.bytes_deduped = 0 ∧ i.status = I32_MAX) := by
  refine ⟨?_, ?_, ?_, ?_, ?_, ?_, ?_⟩
  · intro s b h; simp [interpStatus, h]
  · intro b
    simp [interpStatus, FILE_DEDUPE_RANGE_DIFFERS]
  · decide
  · intro b h
    simp [interpStatus, FILE_DEDUPE_RANGE_SAME, FILE_DEDUPE_RANGE_DIFFERS,
      Nat.pos_iff_ne_zero.mp h]
  · intro s b h0 hsame hdiff
    simp [interpStatus, not_lt.mpr h0, hsame, hdiff]
  · intro K _ fdMap agg i is h
    simp [demux, h]
  · intro K blockSize offset entries i hi
    simp only [buildInfos, List.mem_map] at hi
    obtain ⟨e, _, rfl⟩ := hi
    exact ⟨rfl, rfl⟩

/-- C5 witness: each clause of the interpretation at a concrete input. -/
theorem C5_witness :
    interpStatus (-5) 3 = some (.error 5) ∧
    interpStatus 1 3 = some .rangeDiffers ∧
    interpStatus 0 0 = some .rangeDiffers ∧
    interpStatus 0 9 = some (.rangeSame 9) ∧
    interpStatus 3 9 = none ∧
    demux (K := Nat) [(0, 7)] []
      [{ dest_fd := 0, dest_offset := 0, bytes_deduped := 9, status := 3 }] = none ∧
    ∀ i ∈ buildInfos (K := Nat) 4096 0 [(7, { dest := "B", dest_offset := 0 }, 0)],
      i.bytes_deduped = 0 ∧ i.status = I32_MAX :=
  ⟨C5_status_interpretation.1 (-5) 3 (by decide),
   C5_status_interpretation.2.1 3,
   C5_status_interpretation.2.2.1,
   C5_status_interpretation.2.2.2.1 9 (by decide),
   C5_status_interpretation.2.2.2.2.1 3 9 (by decide) (by decide) (by decide),
   C5_status_interpretation.2.2.2.2.2.1 Nat [(0, 7)] []
     { dest_fd := 0, dest_offset := 0, bytes_deduped := 9, status := 3 } []
     (by decide),
   C5_status_interpretation.2.2.2.2.2.2 Nat 4096 0
     [(7, { dest := "B", dest_offset := 0 }, 0)]⟩

/-! ## Claim C8 -/

/-- C8 counterexample: not every `FileOffset` is canonicalized at
construction.  `ChunkManager::create_target` builds its offsets with a
plain struct literal from the stored walker path: with the stored path
`"a"` and a canonicalization that maps `"a"` to `"/a"`, the emitted
target's `FileOffset` carries `"a"`, not the canonical form. -/
theorem C8_counterexample :
    (create_target ["a"] [{ hash := 1, offset := 0, length := 10 }]
        0 [(0, 0)] 1).offsets = [{ file := "a", offset := 0 }] ∧
    exCanon "a" = "/a" ∧
    ({ file := "a", offset := 0 } : FileOffset).file ≠ exCanon "a" := by
  constructor
  · rfl
  · constructor <;> decide

/-- C8 (amended): `FileOffset::new` does canonicalize — the stored path is
always the canonicalization oracle's image of the given path — but the
`FileOffset`s placed into targets emitted by `ChunkManager::create_target`
carry the manager's stored path verbatim: whenever every path index of
`start_chunks` is in bounds, each emitted offset's `file` field is a
member of the stored `paths` list as-is (no canonicalization applied). -/
theorem C8_new_canonicalizes_create_target_copies :
    (∀ (canon : Path → Path) (file : Path) (offset : Nat),
        (FileOffset.new canon file offset).file = canon file ∧
        (FileOffset.new canon file offset).offset = offset) ∧
    (∀ (paths : List Path) (chunk_data : List Chunk) (index : Nat)
        (start_chunks : List (Nat × Nat)) (chunk_index : Nat),
        (∀ p ∈ start_chunks, p.1 < paths.length) →
        ∀ fo ∈ (create_target paths chunk_data index start_chunks
            chunk_index).offsets, fo.file ∈ paths) := by
  constructor
  · intro canon file offset; exact ⟨rfl, rfl⟩
  · intro paths chunk_data index start_chunks chunk_index hb fo hfo
    simp only [create_target, List.mem_map] at hfo
    obtain ⟨p, hp, rfl⟩ := hfo
    simp [List.getD_eq_getElem?_getD, List.getElem?_eq_getElem (hb p hp)]

/-- C8 witness: the amended theorem at a concrete emitted target. -/
theorem C8_witness :
    (FileOffset.new exCanon "a" 3).file = exCanon "a" ∧
    ∀ fo ∈ (create_target ["a"] [{ hash := 1, offset := 0, length := 10 }]
        0 [(0, 0)] 1).offsets, fo.file ∈ ["a"] :=
  ⟨(C8_new_canonicalizes_create_target_copies.1 exCanon "a" 3).1,
   C8_new_canonicalizes_create_target_copies.2 ["a"]
     [{ hash := 1, offset := 0, length := 10 }] 0 [(0, 0)] 1 (by decide)⟩

/-! ## Claim C10 -/

/-- C10: `remove_already_shared_file_sections` panics (via
`max_by_key(..).unwrap()` on the empty bucket map) exactly when the
target's offsets list is empty: an empty-offsets target always hits the
`fatal` outcome, a target with at least one offset never does (any probe
error is surfaced as an `Err`, not a panic) — and the empty target is
reachable, since `resolve_file_sections` maps an empty file list to the
empty target. -/
theorem C10_empty_target_is_fatal :
    (∀ (probe : FileOffset → Except OsError (List Extent)) (len : Nat),
        remove_already_shared_file_sections probe
          { length := len, offsets := [] } = .fatal) ∧
    (∀ (probe : FileOffset → Except OsError (List Extent))
        (t : FileSectionTarget), t.offsets ≠ [] →
        remove_already_shared_file_sections probe t ≠ .fatal) ∧
    (∀ (canon : Path → Path) (fileSize : Path → Except OsError Nat),
        resolve_file_sections canon fileSize [] =
          .ok { length := 0, offsets := [] }) := by
  refine ⟨?_, ?_, ?_⟩
  · intro probe len; rfl
  · intro probe t h
    unfold remove_already_shared_file_sections
    cases hpb : pruneBuckets probe t.offsets [] with
    | error e => simp
    | ok buckets =>
      have hbne : buckets ≠ [] := by
        cases hos : t.offsets with
        | nil => exact absurd hos h
        | cons o os =>
          rw [hos] at hpb
          simp only [pruneBuckets] at hpb
          cases hpr : probe o with
          | error e => rw [hpr] at hpb; cases hpb
          | ok exts =>
            rw [hpr] at hpb
            exact pruneBuckets_ok_ne_nil probe os _ buckets
              (bucketPush_ne_nil [] _ o) hpb
      dsimp only
      cases hmx : maxByLen (buckets.map (fun b => b.2)) with
      | none =>
        rw [maxByLen_eq_none_iff] at hmx
        exact absurd (List.map_eq_nil_iff.mp hmx) hbne
      | some biggest => dsimp only; split_ifs <;> simp
  · intro canon fileSize; rfl

/-- C10 witness: the no-panic direction at a concrete one-offset target. -/
theorem C10_witness :
    remove_already_shared_file_sections exProbe
      { length := 10, offsets := [exA] } ≠ .fatal :=
  C10_empty_target_is_fatal.2.1 exProbe { length := 10, offsets := [exA] }
    (by decide)

/-! ## Helper lemmas for the pruner's bucket map (Claim C7) -/

theorem pruneBuckets_eq_mkBuckets
    (probe : FileOffset → Except OsError (List Extent))
    (extsOf : FileOffset → List Extent) :
    ∀ (os : List FileOffset) (m : List (List (Nat × Nat) × List FileOffset)),
      (∀ o ∈ os, probe o = .ok (extsOf o)) →
      pruneBuckets probe os m =
        .ok (mkBuckets (fun o => extentListKey (extsOf o)) os m) := by
  intro os
  induction os with
  | nil => intro m _; rfl
  | cons o os ih =>
    intro m h
    have ho := h o (List.mem_cons_self o os)
    simp only [pruneBuckets, mkBuckets, ho]
    exact ih _ (fun x hx => h x (List.mem_cons_of_mem o hx))

theorem bucketPush_binv (P : List FileOffset) (o : FileOffset)
    (k : List (Nat × Nat)) (ho : o ∉ P) :
    ∀ (m : List (List (Nat × Nat) × List FileOffset)),
      (∀ kv ∈ m, kv.2.Nodup ∧ ∀ x ∈ kv.2, x ∈ P) →
      ∀ kv ∈ bucketPush m k o, kv.2.Nodup ∧ ∀ x ∈ kv.2, x ∈ P ++ [o] := by
  intro m
  induction m with
  | nil =>
    intro _ kv hkv
    simp only [bucketPush, List.mem_singleton] at hkv
    subst hkv
    refine ⟨List.nodup_singleton o, ?_⟩
    intro x hx
    simp only [List.mem_singleton] at hx
    simp [hx]
  | cons hd tl ih =>
    obtain ⟨k', v'⟩ := hd
    intro hm kv hkv
    simp only [bucketPush] at hkv
    by_cases hk : k' = k
    · rw [if_pos hk] at hkv
      rcases List.mem_cons.mp hkv with h | h
      · subst h
        have hhd := hm (k', v') (List.mem_cons_self _ _)
        constructor
        · refine List.Nodup.append hhd.1 (List.nodup_singleton o) ?_
          intro x hx hxo
          simp only [List.mem_singleton] at hxo
          subst hxo
          exact ho (hhd.2 x hx)
        · intro x hx
          rcases List.mem_append.mp hx with h | h
          · exact List.mem_append_left _ (hhd.2 x h)
          · exact List.mem_append_right _ h
      · have := hm kv (List.mem_cons_of_mem _ h)
        exact ⟨this.1, fun x hx => List.mem_append_left _ (this.2 x hx)⟩
    · rw [if_neg hk] at hkv
      rcases List.mem_cons.mp hkv with h | h
      · subst h
        have hhd := hm (k', v') (List.mem_cons_self _ _)
        exact ⟨hhd.1, fun x hx => List.mem_append_left _ (hhd.2 x hx)⟩
      · exact ih (fun kv' hkv' => hm kv' (List.mem_cons_of_mem _ hkv')) kv h

theorem mkBuckets_binv (keyOf : FileOffset → List (Nat × Nat)) :
    ∀ (os P : List FileOffset) (m : List (List (Nat × Nat) × List FileOffset)),
      (P ++ os).Nodup →
      (∀ kv ∈ m, kv.2.Nodup ∧ ∀ x ∈ kv.2, x ∈ P) →
      ∀ kv ∈ mkBuckets keyOf os m, kv.2.Nodup ∧ ∀ x ∈ kv.2, x ∈ P ++ os := by
  intro os
  induction os with
  | nil =>
    intro P m _ hm kv hkv
    simpa using hm kv hkv
  | cons o os ih =>
    intro P m hnd hm kv hkv
    simp only [mkBuckets] at hkv
    have ho : o ∉ P := by
      have hdisj := List.disjoint_of_nodup_append hnd
      exact fun hoP => hdisj hoP (List.mem_cons_self o os)
    have hnd' : ((P ++ [o]) ++ os).Nodup := by
      simpa [List.append_assoc] using hnd
    have hstep := bucketPush_binv P o (keyOf o) ho m hm
    have := ih (P ++ [o]) _ hnd' hstep kv hkv
    exact ⟨this.1, fun x hx => by simpa [List.append_assoc] using this.2 x hx⟩

theorem bucketValues_facts (keyOf : FileOffset → List (Nat × Nat))
    (os : List FileOffset) (hnd : os.Nodup) :
    ∀ v ∈ (mkBuckets keyOf os []).map (fun b => b.2),
      v.Nodup ∧ ∀ x ∈ v, x ∈ os := by
  intro v hv
  obtain ⟨kv, hkv, rfl⟩ := List.mem_map.mp hv
  have := mkBuckets_binv keyOf os [] [] (by simpa using hnd) (by simp) kv hkv
  exact ⟨this.1, fun x hx => by simpa using this.2 x hx⟩

theorem maxByLen_mem : ∀ (vs : List (List FileOffset)) (w : List FileOffset),
    maxByLen vs = some w → w ∈ vs := by
  intro vs
  induction vs with
  | nil => intro w h; cases h
  | cons v vs ih =>
    intro w h
    simp only [maxByLen] at h
    cases hm : maxByLen vs with
    | none => rw [hm] at h; cases h; exact List.mem_cons_self _ _
    | some w' =>
      rw [hm] at h
      cases h
      split
      · exact List.mem_cons_self _ _
      · exact List.mem_cons_of_mem _ (ih w' hm)

theorem mkBuckets_const_key (keyOf : FileOffset → List (Nat × Nat))
    (k : List (Nat × Nat)) :
    ∀ (os acc : List FileOffset), (∀ x ∈ os, keyOf x = k) →
      mkBuckets keyOf os [(k, acc)] = [(k, acc ++ os)] := by
  intro os
  induction os with
  | nil => intro acc _; simp [mkBuckets]
  | cons o os ih =>
    intro acc h
    simp only [mkBuckets, bucketPush,
      if_pos (h o (List.mem_cons_self o os)).symm]
    rw [ih (acc ++ [o]) (fun x hx => h x (List.mem_cons_of_mem o hx))]
    simp

theorem filter_eq_singleton_of_nodup :
    ∀ (l : List FileOffset) (a : FileOffset), l.Nodup → a ∈ l →
      l.filter (fun x => x = a) = [a] := by
  intro l
  induction l with
  | nil => intro a _ ha; cases ha
  | cons y l ih =>
    intro a hnd ha
    have hyl : y ∉ l := (List.nodup_cons.mp hnd).1
    rcases List.mem_cons.mp ha with h | h
    · subst h
      simp only [List.filter_cons, decide_True, if_pos rfl]
      have : l.filter (fun x => x = a) = [] := by
        rw [List.filter_eq_nil_iff]
        intro x hx
        simp only [decide_eq_true_eq]
        exact fun hxa => hyl (hxa ▸ hx)
      simp [this]
    · have hya : ¬ (y = a) := fun hy => hyl (hy ▸ h)
      have := ih a (List.nodup_cons.mp hnd).2 h
      simp [List.filter_cons, hya, this]

theorem remove_eq_of_buckets (probe : FileOffset → Except OsError (List Extent))
    (t : FileSectionTarget) (buckets : List (List (Nat × Nat) × List FileOffset))
    (hpb : pruneBuckets probe t.offsets [] = .ok buckets) :
    remove_already_shared_file_sections probe t =
      match maxByLen (buckets.map (fun b => b.2)) with
      | none => .fatal
      | some biggest =>
        if biggest.length = 1 then .ok t.offsets
        else if biggest.length = t.offsets.length then .ok []
        else .ok (t.offsets.filter (fun x => ¬ x ∈ biggest.tail)) := by
  unfold remove_already_shared_file_sections
  rw [hpb]

/-! ## Claim C7 -/

/-- C7 counterexample: with duplicate candidates the "otherwise" case does
not retain exactly one representative of the largest bucket.  On offsets
`[A, A, C]` (where the two `A`s share one extent key and `C` has another)
the largest bucket is `[A, A]` with 2 of 3 candidates, so the claim says
exactly one `A` survives; the code's `retain` removes every occurrence of
the values in `biggest_vec[1..] = [A]`, leaving `[C]` with zero
representatives of the bucket. -/
theorem C7_counterexample :
    remove_already_shared_file_sections exProbe
      { length := 10, offsets := [exA, exA, exC] } = .ok [exC] ∧
    maxByLen ((mkBuckets (fun o => extentListKey (exExts o))
        [exA, exA, exC] []).map (fun b => b.2)) = some [exA, exA] ∧
    ([exC].filter (fun x => x ∈ [exA, exA])).length = 0 := by
  decide

/-- C7 (amended, adding that the offsets are distinct — forced by the
counterexample — and at least two candidates for the emptying corollary):
with every probe succeeding and `biggest` the bucket `max_by_key` selects,
the pruner (1) leaves the offsets unchanged when `|B*| = 1`; (2) empties
them when `|B*|` is the number of candidates (and not 1); (3) otherwise,
for distinct offsets, keeps exactly one representative of `B*` (its first
member), drops the other members of `B*`, and retains every candidate
outside `B*`; (4) never adds offsets (the result is a sublist); and (5)
empties any target of at least two candidates that all share one canonical
extent key. -/
theorem C7_prune_case_analysis
    (probe : FileOffset → Except OsError (List Extent))
    (extsOf : FileOffset → List Extent) (t : FileSectionTarget)
    (biggest : List FileOffset)
    (hprobe : ∀ o ∈ t.offsets, probe o = .ok (extsOf o))
    (hmax : maxByLen ((mkBuckets (fun o => extentListKey (extsOf o))
        t.offsets []).map (fun b => b.2)) = some biggest) :
    (biggest.length = 1 →
      remove_already_shared_file_sections probe t = .ok t.offsets) ∧
    (biggest.length ≠ 1 → biggest.length = t.offsets.length →
      remove_already_shared_file_sections probe t = .ok []) ∧
    (t.offsets.Nodup → biggest.length ≠ 1 →
      biggest.length ≠ t.offsets.length →
      ∀ b0 bt, biggest = b0 :: bt →
        remove_already_shared_file_sections probe t =
          .ok (t.offsets.filter (fun x => ¬ x ∈ bt)) ∧
        b0 ∈ t.offsets.filter (fun x => ¬ x ∈ bt) ∧
        (∀ x ∈ bt, ¬ x ∈ t.offsets.filter (fun x => ¬ x ∈ bt)) ∧
        (∀ x ∈ t.offsets, ¬ x ∈ biggest →
          x ∈ t.offsets.filter (fun x => ¬ x ∈ bt)) ∧
        (t.offsets.filter (fun x => ¬ x ∈ bt)).filter
          (fun x => x ∈ biggest) = [b0]) ∧
    (∀ out, remove_already_shared_file_sections probe t = .ok out →
      out.Sublist t.offsets) ∧
    (2 ≤ t.offsets.length →
      (∀ o1 ∈ t.offsets, ∀ o2 ∈ t.offsets,
        extentListKey (extsOf o1) = extentListKey (extsOf o2)) →
      remove_already_shared_file_sections probe t = .ok []) := by
  have hpb := pruneBuckets_eq_mkBuckets probe extsOf t.offsets [] hprobe
  have hrm := remove_eq_of_buckets probe t _ hpb
  rw [hmax] at hrm
  dsimp only at hrm
  refine ⟨?_, ?_, ?_, ?_, ?_⟩
  · intro h1
    rw [hrm, if_pos h1]
  · intro h1 hall
    rw [hrm, if_neg h1, if_pos hall]
  · intro hnd h1 hall b0 bt hbig
    have hvfacts := bucketValues_facts (fun o => extentListKey (extsOf o))
      t.offsets hnd biggest (maxByLen_mem _ biggest hmax)
    have hbnd : biggest.Nodup := hvfacts.1
    have hbsub : ∀ x ∈ biggest, x ∈ t.offsets := hvfacts.2
    subst hbig
    have hb0nbt : b0 ∉ bt := (List.nodup_cons.mp hbnd).1
    have hres : remove_already_shared_file_sections probe t =
        .ok (t.offsets.filter (fun x => ¬ x ∈ bt)) := by
      rw [hrm, if_neg h1, if_neg hall]
      simp only [List.tail_cons]
    refine ⟨hres, ?_, ?_, ?_, ?_⟩
    · rw [List.mem_filter]
      exact ⟨hbsub b0 (List.mem_cons_self _ _), by simpa using hb0nbt⟩
    · intro x hx hxf
      rw [List.mem_filter] at hxf
      exact (by simpa using hxf.2 : x ∉ bt) hx
    · intro x hx hxb
      rw [List.mem_filter]
      refine ⟨hx, ?_⟩
      rw [decide_eq_true_eq]
      exact fun hxbt => hxb (List.mem_cons_of_mem _ hxbt)
    · rw [List.filter_filter]
      have hcong : ∀ x ∈ t.offsets,
          (decide (x ∈ b0 :: bt) && decide (¬ x ∈ bt)) =
            decide (x = b0) := by
        intro x _
        by_cases hxb : x = b0
        · subst hxb
          simp [hb0nbt]
        · by_cases hxbt : x ∈ bt <;>
            simp [hxb, hxbt, List.mem_cons]
      rw [List.filter_congr hcong]
      exact filter_eq_singleton_of_nodup t.offsets b0 hnd
        (hbsub b0 (List.mem_cons_self _ _))
  · intro out hout
    rw [hrm] at hout
    split_ifs at hout with hc1 hc2
    · injection hout with h
      subst h
      exact List.Sublist.refl _
    · injection hout with h
      subst h
      exact List.nil_sublist _
    · injection hout with h
      subst h
      exact List.filter_sublist _
  · intro hlen hkeys
    cases hos : t.offsets with
    | nil => rw [hos] at hlen; simp at hlen
    | cons o os =>
      have hkeys' : ∀ x ∈ os, extentListKey (extsOf x) = extentListKey (extsOf o) := by
        intro x hx
        refine hkeys x ?_ o ?_
        · rw [hos]; exact List.mem_cons_of_mem o hx
        · rw [hos]; exact List.mem_cons_self o os
      have hconst : mkBuckets (fun o' => extentListKey (extsOf o'))
          t.offsets [] = [(extentListKey (extsOf o), o :: os)] := by
        rw [hos]
        simp only [mkBuckets, bucketPush]
        simpa using mkBuckets_const_key _ (extentListKey (extsOf o)) os [o] hkeys'
      rw [hconst] at hmax
      simp only [List.map_cons, List.map_nil, maxByLen] at hmax
      have hbig : o :: os = biggest := by
        simpa using hmax
      subst hbig
      rw [hrm]
      have h2 : (o :: os).length = t.offsets.length := by rw [hos]
      have h1 : ¬ ((o :: os).length = 1) := by
        have h3 : 2 ≤ (o :: os).length := by rw [hos] at hlen; exact hlen
        simp only [List.length_cons] at h3 ⊢
        omega
      rw [if_neg h1, if_pos h2]

/-- C7 witness: the amended theorem's "otherwise" case at `[A, B, C]`
(where `A` and `B` share an extent key): one representative of the big
bucket plus the outsider survive. -/
theorem C7_witness :
    remove_already_shared_file_sections exProbe
      { length := 10, offsets := [exA, exB, exC] } = .ok [exA, exC] := by
  have h := C7_prune_case_analysis exProbe exExts
    { length := 10, offsets := [exA, exB, exC] } [exA, exB]
    (by decide) (by decide)
  have h3 := (h.2.2.1 (by decide) (by decide) (by decide) exA [exB] rfl).1
  rw [h3]
  decide

/-! ## Helper lemmas for the driver loop (Claims C6, C9) -/

theorem openAll_length {K : Type} (openW : Path → Except OsError Unit) :
    ∀ (l : List (K × DedupeRequest)) (ctr : Nat)
      (entries : List (K × DedupeRequest × Nat)),
      openAll openW ctr l = .ok entries → entries.length = l.length := by
  intro l
  induction l with
  | nil =>
    intro ctr entries h
    simp only [openAll] at h
    cases h
    rfl
  | cons p rest ih =>
    obtain ⟨k, r⟩ := p
    intro ctr entries h
    simp only [openAll] at h
    cases hw : openW r.dest with
    | error e => rw [hw] at h; cases h
    | ok u =>
      rw [hw] at h
      cases hr : openAll openW (ctr + 1) rest with
      | error e => rw [hr] at h; cases h
      | ok l' =>
        rw [hr] at h
        cases h
        simp [ih _ _ hr]

theorem chunksOfAux_length_le {α : Type} (n : Nat) (hn : 0 < n) :
    ∀ (fuel : Nat) (l : List α), ∀ c ∈ chunksOfAux n fuel l, c.length ≤ n := by
  intro fuel
  induction fuel with
  | zero =>
    intro l c hc
    cases l <;> simp [chunksOfAux] at hc
  | succ fuel ih =>
    intro l c hc
    cases l with
    | nil => simp [chunksOfAux] at hc
    | cons x xs =>
      simp only [chunksOfAux, List.mem_cons] at hc
      rcases hc with rfl | hc
      · simp only [List.length_cons, List.length_take]
        omega
      · exact ih _ c hc

theorem chunksOf_length_le {α : Type} (n : Nat) (hn : 0 < n) (l : List α) :
    ∀ c ∈ chunksOf n l, c.length ≤ n :=
  chunksOfAux_length_le n hn l.length l

theorem runChunk_trace_eq {K : Type} [DecidableEq K] (env : DriverEnv)
    (offset : Nat) (chunk : List (K × DedupeRequest)) (st : DriverState K) :
    (runChunk env offset chunk st).1.trace = st.trace ∨
    ∃ entries, openAll env.openW st.counter chunk = .ok entries ∧
      (runChunk env offset chunk st).1.trace =
        st.trace ++ [⟨buildHeader env offset entries.length,
                      buildInfos env.blockSize offset entries⟩] := by
  unfold runChunk
  cases hoa : openAll env.openW st.counter chunk with
  | error e => left; rfl
  | ok entries =>
    right
    refine ⟨entries, rfl, ?_⟩
    dsimp only
    cases env.kernel st.callIdx with
    | error e => rfl
    | ok outs =>
      dsimp only
      cases demux (mkFdMap entries) st.agg
          (writeBack (buildInfos env.blockSize offset entries) outs) with
      | none => rfl
      | some agg' => rfl

theorem runChunk_trace_eq_none {K : Type} [DecidableEq K] (env : DriverEnv)
    (offset : Nat) (chunk : List (K × DedupeRequest)) (st st' : DriverState K)
    (h : runChunk env offset chunk st = (st', none)) :
    ∃ entries agg', openAll env.openW st.counter chunk = .ok entries ∧
      st' = { stAfterCall env offset chunk entries st with agg := agg' } := by
  unfold runChunk at h
  cases hoa : openAll env.openW st.counter chunk with
  | error e => rw [hoa] at h; cases h
  | ok entries =>
    rw [hoa] at h
    dsimp only at h
    cases hk : env.kernel st.callIdx with
    | error e => rw [hk] at h; cases h
    | ok outs =>
      rw [hk] at h
      dsimp only at h
      cases hd : demux (mkFdMap entries) st.agg
          (writeBack (buildInfos env.blockSize offset entries) outs) with
      | none => rw [hd] at h; cases h
      | some agg' =>
        rw [hd] at h
        dsimp only at h
        cases h
        exact ⟨entries, agg', rfl, rfl⟩

theorem runChunk_trace_bound {K : Type} [DecidableEq K] (env : DriverEnv)
    (offset : Nat) (chunk : List (K × DedupeRequest)) (st : DriverState K)
    (hc : chunk.length ≤ IOCTL_DEDUPE_MAX_DESTS)
    (hst : ∀ call ∈ st.trace,
      call.header.dest_count ≤ IOCTL_DEDUPE_MAX_DESTS ∧
      call.header.src_length ≤ IOCTL_DEDUPE_MAX_BYTES) :
    ∀ call ∈ (runChunk env offset chunk st).1.trace,
      call.header.dest_count ≤ IOCTL_DEDUPE_MAX_DESTS ∧
      call.header.src_length ≤ IOCTL_DEDUPE_MAX_BYTES := by
  intro call hcall
  rcases runChunk_trace_eq env offset chunk st with h | ⟨entries, hoa, h⟩
  · rw [h] at hcall
    exact hst call hcall
  · rw [h] at hcall
    rcases List.mem_append.mp hcall with h' | h'
    · exact hst call h'
    · simp only [List.mem_singleton] at h'
      subst h'
      constructor
      · simp only [buildHeader]
        rw [openAll_length env.openW chunk st.counter entries hoa]
        exact hc
      · exact Nat.min_le_right _ _

theorem runChunks_trace_bound {K : Type} [DecidableEq K] (env : DriverEnv)
    (offset : Nat) :
    ∀ (cs : List (List (K × DedupeRequest))) (st : DriverState K),
      (∀ c ∈ cs, c.length ≤ IOCTL_DEDUPE_MAX_DESTS) →
      (∀ call ∈ st.trace,
        call.header.dest_count ≤ IOCTL_DEDUPE_MAX_DESTS ∧
        call.header.src_length ≤ IOCTL_DEDUPE_MAX_BYTES) →
      ∀ call ∈ (runChunks env offset cs st).1.trace,
        call.header.dest_count ≤ IOCTL_DEDUPE_MAX_DESTS ∧
        call.header.src_length ≤ IOCTL_DEDUPE_MAX_BYTES := by
  intro cs
  induction cs with
  | nil =>
    intro st _ hst call hcall
    exact hst call hcall
  | cons c cs ih =>
    intro st hcs hst call hcall
    have hbound := runChunk_trace_bound env offset c st
      (hcs c (List.mem_cons_self _ _)) hst
    simp only [runChunks] at hcall
    rcases hrc : runChunk env offset c st with ⟨st', halt⟩
    rw [hrc] at hcall hbound
    cases halt with
    | none =>
      exact ih st' (fun c' hc' => hcs c' (List.mem_cons_of_mem _ hc'))
        hbound call hcall
    | some hh => exact hbound call hcall

theorem runWindows_trace_bound {K : Type} [DecidableEq K] (env : DriverEnv)
    (request : List (K × DedupeRequest)) (fullLength : Nat) :
    ∀ (fuel offset : Nat) (st : DriverState K),
      (∀ call ∈ st.trace,
        call.header.dest_count ≤ IOCTL_DEDUPE_MAX_DESTS ∧
        call.header.src_length ≤ IOCTL_DEDUPE_MAX_BYTES) →
      ∀ call ∈ (runWindows env request fullLength fuel offset st).1.trace,
        call.header.dest_count ≤ IOCTL_DEDUPE_MAX_DESTS ∧
        call.header.src_length ≤ IOCTL_DEDUPE_MAX_BYTES := by
  intro fuel
  induction fuel with
  | zero =>
    intro offset st hst call hcall
    exact hst call hcall
  | succ fuel ih =>
    intro offset st hst call hcall
    have hchunks : ∀ c ∈ chunksOf IOCTL_DEDUPE_MAX_DESTS request,
        c.length ≤ IOCTL_DEDUPE_MAX_DESTS :=
      chunksOf_length_le IOCTL_DEDUPE_MAX_DESTS (by decide) request
    simp only [runWindows] at hcall
    by_cases h : offset < fullLength
    · rw [if_pos h] at hcall
      have hbound := runChunks_trace_bound env offset
        (chunksOf IOCTL_DEDUPE_MAX_DESTS request) st hchunks hst
      rcases hrc : runChunks env offset (chunksOf IOCTL_DEDUPE_MAX_DESTS request) st
        with ⟨st', halt⟩
      rw [hrc] at hcall hbound
      cases halt with
      | none => exact ih _ st' hbound call hcall
      | some hh => exact hbound call hcall
    · rw [if_neg h] at hcall
      exact hst call hcall

/-! ## Claim C6 -/

/-- C6: every `FIDEDUPERANGE` request built by `dedupe_files` has at most
`IOCTL_DEDUPE_MAX_DESTS = 100` destinations and a `src_length` of at most
`IOCTL_DEDUPE_MAX_BYTES = 16 MiB`, for any destination map, source range,
block size and kernel/open behavior. -/
theorem C6_request_caps {K : Type} [DecidableEq K] (env : DriverEnv)
    (request : List (K × DedupeRequest)) :
    ∀ call ∈ (dedupe_files env request).1.trace,
      call.header.dest_count ≤ IOCTL_DEDUPE_MAX_DESTS ∧
      call.header.src_length ≤ IOCTL_DEDUPE_MAX_BYTES := by
  intro call hcall
  exact runWindows_trace_bound env request (env.srcEnd - env.srcStart)
    (env.srcEnd - env.srcStart) 0 _ (by simp) call hcall

/-- C6 witness: the caps at the one ioctl of a concrete driver run. -/
theorem C6_witness :
    ({ header := { src_offset := 0, src_length := 4096, dest_count := 1 },
       infos := [{ dest_fd := 0, dest_offset := 0, bytes_deduped := 0,
                   status := I32_MAX }] } : IssuedCall).header.dest_count ≤
        IOCTL_DEDUPE_MAX_DESTS ∧
    ({ header := { src_offset := 0, src_length := 4096, dest_count := 1 },
       infos := [{ dest_fd := 0, dest_offset := 0, bytes_deduped := 0,
                   status := I32_MAX }] } : IssuedCall).header.src_length ≤
        IOCTL_DEDUPE_MAX_BYTES :=
  C6_request_caps exDriverEnv exRequest _ (by decide)

theorem openAll_shape {K : Type} (openW : Path → Except OsError Unit) :
    ∀ (l : List (K × DedupeRequest)) (ctr : Nat)
      (entries : List (K × DedupeRequest × Nat)),
      openAll openW ctr l = .ok entries →
      entries.map (fun e => (e.1, e.2.1)) = l ∧
      entries.map (fun e => e.2.2) = List.range' ctr l.length := by
  intro l
  induction l with
  | nil =>
    intro ctr entries h
    simp only [openAll] at h
    cases h
    exact ⟨rfl, rfl⟩
  | cons p rest ih =>
    obtain ⟨k, r⟩ := p
    intro ctr entries h
    simp only [openAll] at h
    cases hw : openW r.dest with
    | error e => rw [hw] at h; cases h
    | ok u =>
      rw [hw] at h
      cases hr : openAll openW (ctr + 1) rest with
      | error e => rw [hr] at h; cases h
      | ok l' =>
        rw [hr] at h
        cases h
        have := ih (ctr + 1) l' hr
        constructor
        · simp only [List.map_cons, this.1]
        · simp only [List.map_cons, this.2, List.length_cons,
            List.range'_succ]

theorem lookupLast_eq_none {K V : Type} [DecidableEq K] :
    ∀ (l : List (K × V)) (k : K), k ∉ l.map Prod.fst →
      lookupLast l k = none := by
  intro l
  induction l with
  | nil => intro k _; rfl
  | cons p rest ih =>
    obtain ⟨k', v⟩ := p
    intro k hk
    simp only [List.map_cons, List.mem_cons, not_or] at hk
    simp only [lookupLast, ih k hk.2]
    rw [if_neg (fun h => hk.1 h.symm)]

theorem lookupLast_of_nodup {K V : Type} [DecidableEq K] :
    ∀ (l : List (K × V)) (k : K) (v : V), (l.map Prod.fst).Nodup →
      (k, v) ∈ l → lookupLast l k = some v := by
  intro l
  induction l with
  | nil => intro k v _ hm; cases hm
  | cons p rest ih =>
    obtain ⟨k', v'⟩ := p
    intro k v hnd hm
    have hnd' := List.nodup_cons.mp hnd
    rcases List.mem_cons.mp hm with h | h
    · cases h
      simp only [lookupLast, lookupLast_eq_none rest k' hnd'.1]
      simp
    · simp only [lookupLast, ih k v hnd'.2 h]

theorem lookupLast_mem {K V : Type} [DecidableEq K] :
    ∀ (l : List (K × V)) (k : K) (v : V), lookupLast l k = some v →
      (k, v) ∈ l := by
  intro l
  induction l with
  | nil => intro k v h; cases h
  | cons p rest ih =>
    obtain ⟨k', v'⟩ := p
    intro k v h
    simp only [lookupLast] at h
    cases hr : lookupLast rest k with
    | some r =>
      rw [hr] at h
      cases h
      exact List.mem_cons_of_mem _ (ih k v hr)
    | none =>
      rw [hr] at h
      by_cases hk : k' = k
      · rw [if_pos hk] at h
        cases h
        cases hk
        exact List.mem_cons_self _ _
      · rw [if_neg hk] at h
        cases h

theorem destFds_keys {K : Type} (entries : List (K × DedupeRequest × Nat)) :
    (destFds entries).map Prod.fst = entries.map (fun e => e.2.1.dest) := by
  simp [destFds, List.map_map]

theorem fdOf_eq {K : Type} (entries : List (K × DedupeRequest × Nat))
    (hnd : (entries.map (fun e => e.2.1.dest)).Nodup) :
    ∀ e ∈ entries, fdOf entries e.2.1.dest = e.2.2 := by
  intro e he
  unfold fdOf
  rw [lookupLast_of_nodup (destFds entries) e.2.1.dest e.2.2
    (by rw [destFds_keys]; exact hnd)
    (List.mem_map.mpr ⟨e, he, rfl⟩)]
  rfl

theorem mkFdMap_eq {K : Type} (entries : List (K × DedupeRequest × Nat))
    (hnd : (entries.map (fun e => e.2.1.dest)).Nodup) :
    mkFdMap entries = entries.map (fun e => (e.2.2, e.1)) := by
  unfold mkFdMap
  exact List.map_congr_left (fun e he => by rw [fdOf_eq entries hnd e he])

theorem buildInfos_dest_fd {K : Type} (blockSize offset : Nat)
    (entries : List (K × DedupeRequest × Nat))
    (hnd : (entries.map (fun e => e.2.1.dest)).Nodup) :
    (buildInfos blockSize offset entries).map (fun i => i.dest_fd) =
      entries.map (fun e => e.2.2) := by
  unfold buildInfos
  rw [List.map_map]
  exact List.map_congr_left (fun e he => by
    simp only [Function.comp]
    rw [fdOf_eq entries hnd e he])

theorem writeBack_dest_fd :
    ∀ (infos : List DedupeRequestInternalInfo) (outs : List (Nat × Int)),
      (writeBack infos outs).map (fun i => i.dest_fd) =
        infos.map (fun i => i.dest_fd) := by
  intro infos
  induction infos with
  | nil => intro outs; cases outs <;> rfl
  | cons i is ih =>
    intro outs
    cases outs with
    | nil => rfl
    | cons o os =>
      obtain ⟨b, s⟩ := o
      simp only [writeBack, List.map_cons, ih os]

theorem mem_pushResponse_keys {K : Type} [DecidableEq K] :
    ∀ (agg : List (K × List DedupeResponse)) (k : K) (r : DedupeResponse)
      (x : K),
      x ∈ (pushResponse agg k r).map Prod.fst ↔
        x ∈ agg.map Prod.fst ∨ x = k := by
  intro agg
  induction agg with
  | nil => intro k r x; simp [pushResponse]
  | cons p rest ih =>
    obtain ⟨k', rs⟩ := p
    intro k r x
    simp only [pushResponse]
    by_cases hk : k' = k
    · subst hk
      rw [if_pos rfl]
      simp only [List.map_cons, List.mem_cons]
      tauto
    · rw [if_neg hk]
      simp only [List.map_cons, List.mem_cons, ih k r x]
      tauto

theorem demux_some_keys {K : Type} [DecidableEq K] (fdMap : List (Nat × K)) :
    ∀ (infos : List DedupeRequestInternalInfo)
      (agg agg' : List (K × List DedupeResponse)),
      demux fdMap agg infos = some agg' →
      ∀ x, x ∈ agg'.map Prod.fst ↔ x ∈ agg.map Prod.fst ∨
        ∃ i ∈ infos, lookupLast fdMap i.dest_fd = some x := by
  intro infos
  induction infos with
  | nil =>
    intro agg agg' h x
    simp only [demux] at h
    cases h
    simp
  | cons i is ih =>
    intro agg agg' h x
    simp only [demux] at h
    cases hint : interpStatus i.status i.bytes_deduped with
    | none => rw [hint] at h; cases h
    | some r =>
      rw [hint] at h
      cases hl : lookupLast fdMap i.dest_fd with
      | none => rw [hl] at h; cases h
      | some k =>
        rw [hl] at h
        rw [ih (pushResponse agg k r) agg' h x, mem_pushResponse_keys]
        constructor
        · rintro ((hx | rfl) | hx)
          · exact Or.inl hx
          · exact Or.inr ⟨i, List.mem_cons_self _ _, hl⟩
          · obtain ⟨i', hi', hlk⟩ := hx
            exact Or.inr ⟨i', List.mem_cons_of_mem _ hi', hlk⟩
        · rintro (hx | ⟨i', hi', hlk⟩)
          · exact Or.inl (Or.inl hx)
          · rcases List.mem_cons.mp hi' with rfl | hi'
            · rw [hl] at hlk
              cases hlk
              exact Or.inl (Or.inr rfl)
            · exact Or.inr ⟨i', hi', hlk⟩

theorem runChunk_agg_keys {K : Type} [DecidableEq K] (env : DriverEnv)
    (offset : Nat) (chunk : List (K × DedupeRequest)) (st st' : DriverState K)
    (hdest : (chunk.map (fun p => p.2.dest)).Nodup)
    (h : runChunk env offset chunk st = (st', none)) :
    ∀ x, x ∈ st'.agg.map Prod.fst ↔
      x ∈ st.agg.map Prod.fst ∨ x ∈ chunk.map Prod.fst := by
  unfold runChunk at h
  cases hoa : openAll env.openW st.counter chunk with
  | error e => rw [hoa] at h; cases h
  | ok entries =>
    rw [hoa] at h
    dsimp only at h
    cases hk : env.kernel st.callIdx with
    | error e => rw [hk] at h; cases h
    | ok outs =>
      rw [hk] at h
      dsimp only at h
      cases hd : demux (mkFdMap entries) st.agg
          (writeBack (buildInfos env.blockSize offset entries) outs) with
      | none => rw [hd] at h; cases h
      | some agg' =>
        rw [hd] at h
        dsimp only at h
        cases h
        have hshape := openAll_shape env.openW chunk st.counter entries hoa
        have hdest' : (entries.map (fun e => e.2.1.dest)).Nodup := by
          have heq : entries.map (fun e => e.2.1.dest) =
              chunk.map (fun p => p.2.dest) := by
            rw [← hshape.1, List.map_map]
            rfl
          rw [heq]
          exact hdest
        have hkeys : entries.map (fun e => e.1) = chunk.map Prod.fst := by
          rw [← hshape.1, List.map_map]
          rfl
        have hfdnodup : (entries.map (fun e => e.2.2)).Nodup := by
          rw [hshape.2]
          exact List.nodup_range' _ _
        have hfdmap := mkFdMap_eq entries hdest'
        have hfdmapkeys : (mkFdMap entries).map Prod.fst =
            entries.map (fun e => e.2.2) := by
          rw [hfdmap, List.map_map]
          rfl
        have hwb : (writeBack (buildInfos env.blockSize offset entries)
            outs).map (fun i => i.dest_fd) = entries.map (fun e => e.2.2) := by
          rw [writeBack_dest_fd, buildInfos_dest_fd _ _ _ hdest']
        intro x
        rw [demux_some_keys (mkFdMap entries) _ st.agg agg' hd x]
        constructor
        · rintro (hx | ⟨i, hi, hlk⟩)
          · exact Or.inl hx
          · right
            have hmem := lookupLast_mem _ _ _ hlk
            rw [hfdmap] at hmem
            obtain ⟨e, he, heq⟩ := List.mem_map.mp hmem
            have hx1 : e.1 = x := congrArg Prod.snd heq
            rw [← hkeys]
            exact List.mem_map.mpr ⟨e, he, hx1⟩
        · rintro (hx | hx)
          · exact Or.inl hx
          · right
            rw [← hkeys] at hx
            obtain ⟨e, he, hex⟩ := List.mem_map.mp hx
            have hfd : e.2.2 ∈ (writeBack (buildInfos env.blockSize offset
                entries) outs).map (fun i => i.dest_fd) := by
              rw [hwb]
              exact List.mem_map.mpr ⟨e, he, rfl⟩
            obtain ⟨i, hi, hifd⟩ := List.mem_map.mp hfd
            refine ⟨i, hi, ?_⟩
            rw [hifd]
            rw [lookupLast_of_nodup (mkFdMap entries) e.2.2 x
              (by rw [hfdmapkeys]; exact hfdnodup)
              (by rw [hfdmap]; exact List.mem_map.mpr ⟨e, he, by rw [hex]⟩)]

theorem runChunks_agg_keys {K : Type} [DecidableEq K] (env : DriverEnv)
    (offset : Nat) :
    ∀ (cs : List (List (K × DedupeRequest))) (st st' : DriverState K),
      (∀ c ∈ cs, (c.map (fun p => p.2.dest)).Nodup) →
      runChunks env offset cs st = (st', none) →
      ∀ x, x ∈ st'.agg.map Prod.fst ↔ x ∈ st.agg.map Prod.fst ∨
        ∃ c ∈ cs, x ∈ c.map Prod.fst := by
  intro cs
  induction cs with
  | nil =>
    intro st st' _ h x
    simp only [runChunks] at h
    cases h
    simp
  | cons c cs ih =>
    intro st st' hcs h x
    simp only [runChunks] at h
    rcases hrc : runChunk env offset c st with ⟨st₁, halt⟩
    rw [hrc] at h
    cases halt with
    | some hh => simp at h
    | none =>
      rw [ih st₁ st' (fun c' hc' => hcs c' (List.mem_cons_of_mem _ hc')) h x,
        runChunk_agg_keys env offset c st st₁
          (hcs c (List.mem_cons_self _ _)) hrc x]
      simp only [List.mem_cons, exists_eq_or_imp]
      tauto

theorem chunksOfAux_flatten {α : Type} (n : Nat) :
    ∀ (fuel : Nat) (l : List α), l.length ≤ fuel →
      (chunksOfAux n fuel l).flatten = l := by
  intro fuel
  induction fuel with
  | zero =>
    intro l hl
    cases l with
    | nil => rfl
    | cons x xs => simp at hl
  | succ fuel ih =>
    intro l hl
    cases l with
    | nil => rfl
    | cons x xs =>
      simp only [chunksOfAux, List.flatten_cons]
      rw [ih (xs.drop (n - 1)) (by simp only [List.length_drop]; simp at hl; omega)]
      simp [List.take_append_drop]

theorem chunksOf_flatten {α : Type} (n : Nat) (l : List α) :
    (chunksOf n l).flatten = l :=
  chunksOfAux_flatten n l.length l (Nat.le_refl _)

theorem chunksOf_keys_iff {K : Type} (n : Nat)
    (request : List (K × DedupeRequest)) (x : K) :
    (∃ c ∈ chunksOf n request, x ∈ c.map Prod.fst) ↔
      x ∈ request.map Prod.fst := by
  constructor
  · rintro ⟨c, hc, hx⟩
    obtain ⟨p, hp, hpx⟩ := List.mem_map.mp hx
    have : p ∈ request := by
      rw [← chunksOf_flatten n request]
      exact List.mem_flatten_of_mem hc hp
    exact List.mem_map.mpr ⟨p, this, hpx⟩
  · intro hx
    obtain ⟨p, hp, hpx⟩ := List.mem_map.mp hx
    rw [← chunksOf_flatten n request] at hp
    obtain ⟨c, hc, hpc⟩ := List.mem_flatten.mp hp
    exact ⟨c, hc, List.mem_map.mpr ⟨p, hpc, hpx⟩⟩

theorem chunksOfAux_sublist {α : Type} (n : Nat) :
    ∀ (fuel : Nat) (l : List α), ∀ c ∈ chunksOfAux n fuel l, c.Sublist l := by
  intro fuel
  induction fuel with
  | zero =>
    intro l c hc
    cases l <;> simp [chunksOfAux] at hc
  | succ fuel ih =>
    intro l c hc
    cases l with
    | nil => simp [chunksOfAux] at hc
    | cons x xs =>
      simp only [chunksOfAux, List.mem_cons] at hc
      rcases hc with rfl | hc
      · exact List.Sublist.cons₂ x (List.take_sublist _ _)
      · exact (ih _ c hc).trans
          ((List.drop_sublist _ _).trans (List.sublist_cons_self x xs))

theorem chunksOf_sublist {α : Type} (n : Nat) (l : List α) :
    ∀ c ∈ chunksOf n l, c.Sublist l :=
  chunksOfAux_sublist n l.length l

theorem runWindows_agg_keys {K : Type} [DecidableEq K] (env : DriverEnv)
    (request : List (K × DedupeRequest)) (fullLength : Nat)
    (hcs : ∀ c ∈ chunksOf IOCTL_DEDUPE_MAX_DESTS request,
      (c.map (fun p => p.2.dest)).Nodup) :
    ∀ (fuel offset : Nat) (st st' : DriverState K),
      runWindows env request fullLength fuel offset st = (st', none) →
      ∀ x, x ∈ st'.agg.map Prod.fst ↔ x ∈ st.agg.map Prod.fst ∨
        (offset < fullLength ∧ 0 < fuel ∧ x ∈ request.map Prod.fst) := by
  intro fuel
  induction fuel with
  | zero =>
    intro offset st st' h x
    simp only [runWindows] at h
    cases h
    simp
  | succ fuel ih =>
    intro offset st st' h x
    simp only [runWindows] at h
    by_cases ho : offset < fullLength
    · rw [if_pos ho] at h
      rcases hrc : runChunks env offset
          (chunksOf IOCTL_DEDUPE_MAX_DESTS request) st with ⟨st₁, halt⟩
      rw [hrc] at h
      cases halt with
      | some hh => simp at h
      | none =>
        have h1 := runChunks_agg_keys env offset
          (chunksOf IOCTL_DEDUPE_MAX_DESTS request) st st₁ hcs hrc x
        rw [chunksOf_keys_iff] at h1
        rw [ih _ st₁ st' h x, h1]
        simp only [ho, true_and]
        constructor
        · rintro ((hx | hx) | ⟨_, _, hx⟩)
          · exact Or.inl hx
          · exact Or.inr ⟨Nat.succ_pos _, hx⟩
          · exact Or.inr ⟨Nat.succ_pos _, hx⟩
        · rintro (hx | ⟨_, hx⟩)
          · exact Or.inl (Or.inl hx)
          · exact Or.inl (Or.inr hx)
    · rw [if_neg ho] at h
      cases h
      simp [ho]

/-! ## Claim C9 -/

/-- C9 counterexample: for an empty source range
(`src_range.start = src_range.end = 0`) with a nonempty destination map,
`dedupe_files` returns `Ok` with an empty result map — the window loop
never runs — so the result's key set (empty) differs from the request's
key set (`{7}`), refuting the claim's "including an empty range". -/
theorem C9_counterexample :
    (dedupe_files exEmptyRangeEnv exRequest).2 = none ∧
    (dedupe_files exEmptyRangeEnv exRequest).1.agg = [] ∧
    exRequest.map Prod.fst = [7] := by
  decide

/-- C9 (amended, excluding the empty source range the counterexample
refutes, and requiring pairwise-distinct destination paths — two keys
sharing one path collapse onto one file descriptor and the `fd_map`
lookup returns only the later key): whenever `dedupe_files` returns `Ok`
on a nonempty source range with pairwise-distinct destination paths, the
key set of the aggregated result map equals the key set of the request
map. -/
theorem C9_result_keys {K : Type} [DecidableEq K] (env : DriverEnv)
    (request : List (K × DedupeRequest))
    (hrange : env.srcStart < env.srcEnd)
    (hdest : (request.map (fun p => p.2.dest)).Nodup)
    (hok : (dedupe_files env request).2 = none) :
    ∀ x, x ∈ (dedupe_files env request).1.agg.map Prod.fst ↔
      x ∈ request.map Prod.fst := by
  have hcs : ∀ c ∈ chunksOf IOCTL_DEDUPE_MAX_DESTS request,
      (c.map (fun p => p.2.dest)).Nodup := by
    intro c hc
    exact List.Nodup.sublist
      (List.Sublist.map _ (chunksOf_sublist _ _ c hc)) hdest
  intro x
  unfold dedupe_files at hok ⊢
  rcases hrw : runWindows env request (env.srcEnd - env.srcStart)
      (env.srcEnd - env.srcStart) 0
      { counter := 0, callIdx := 0, trace := [], agg := [] }
    with ⟨st', halt⟩
  rw [hrw] at hok
  have hh : halt = none := hok
  subst hh
  have hfull : 0 < env.srcEnd - env.srcStart := by omega
  have := runWindows_agg_keys env request (env.srcEnd - env.srcStart) hcs
    (env.srcEnd - env.srcStart) 0
    { counter := 0, callIdx := 0, trace := [], agg := [] } st' hrw x
  simpa [hfull] using this

/-- C9 witness: the amended theorem at a concrete run — key 7 of the
one-destination request appears among the result keys. -/
theorem C9_witness :
    (7 : Nat) ∈ (dedupe_files exDriverEnv exRequest).1.agg.map Prod.fst :=
  (C9_result_keys exDriverEnv exRequest (by decide) (by decide)
    (by decide) 7).mpr (by decide)

end Dedupetool
